import Mathlib

/-!
Verification of the adaptive withdraw engine of the `creek` scripts
(`wdsui.mjs`, given as `src/unnamed/part_000`).

The JavaScript source is shallowly embedded:
* a Move parameter descriptor is represented by its serialized (JSON) form,
  a `String`, because the source inspects parameters exclusively through
  regular-expression tests on `JSON.stringify(p)`;
* `BigInt` amounts become `Int` (BigInt `/` is `Int.tdiv`, BigInt `>> 1n`
  is floor division, i.e. `Int` division by `2`);
* network calls (`probeEntry` dry-runs, `runOnce` submissions, object
  ownership lookups) become oracle functions passed as arguments;
* the unbounded `while` loop of the exploration phase of
  `findMaxWithdrawable` is given explicit fuel, since for degenerate start
  guesses it can genuinely diverge; `none` models running out of fuel.
-/

namespace Creek

/-! ## String utilities

The source classifies errors and parameters by regular-expression tests
whose patterns are plain alternations of literal substrings.  All of them
reduce to (case-sensitive or case-insensitive) substring tests.
-/

/-- `leadsWith n h` is true when the char list `n` is an initial segment of `h`. -/
def leadsWith : List Char → List Char → Bool
  | [], _ => true
  | _ :: _, [] => false
  | a :: as, b :: bs => a == b && leadsWith as bs

/-- `hasSubList n h` is true when `n` occurs contiguously inside `h`. -/
def hasSubList (n : List Char) : List Char → Bool
  | [] => leadsWith n []
  | c :: t => leadsWith n (c :: t) || hasSubList n t

/-- JavaScript `hay.includes(needle)` / a literal regex test without flags. -/
def strHasSub (needle hay : String) : Bool :=
  hasSubList needle.toList hay.toList

/-- JavaScript `String.prototype.toLowerCase` (ASCII suffices here; spelled
over the character list so that the kernel can evaluate it). -/
def lowerStr (s : String) : String := String.mk (s.toList.map Char.toLower)

/-- A case-insensitive alternation regex `/(p1|p2|...)/i.test(msg)`:
the patterns are stored lowercase and the message is lowered. -/
def matchesAnyCI (pats : List String) (msg : String) : Bool :=
  pats.any (fun p => strHasSub p (lowerStr msg))

/-! ## Signature matcher (`buildWithdrawArgs`, part_000 lines 232-255)

A parameter descriptor is its serialized string `s = JSON.stringify(p)`;
the role tests are the source's literal regexes, in the source's order. -/

def patVersion : String := "\"module\":\"version\",\"name\":\"Version\""

def patObligation : String := "\"module\":\"obligation\",\"name\":\"Obligation\""

def patObligationKey : String := "\"module\":\"obligation\",\"name\":\"ObligationKey\""

def patMarket : String := "\"module\":\"market\",\"name\":\"Market\""

def patRegistry : String := "\"module\":\"coin_decimals_registry\",\"name\":\"CoinDecimalsRegistry\""

def patU64Quoted : String := "\"U64\""

def patU64 : String := "U64"

def patOracle : String := "\"module\":\"x_oracle\""

def patClock : String := "\"address\":\"0x2\",\"module\":\"clock\",\"name\":\"Clock\""

/-- A transaction argument pushed by `buildWithdrawArgs`: either
`tx.object(id)` or `tx.pure.u64(amount)`. -/
inductive Arg where
  | obj (id : String)
  | pureU64 (amount : Int)
deriving DecidableEq

/-- The role bindings `ctx` consumed by `buildWithdrawArgs`.  Fields that the
source tests for presence (`!ctx.obligationKeyId`, `!ctx.DECIMALS_REGISTRY_ID`,
`ctx.amountRaw == null`) are `Option`s. -/
structure WithdrawCtx where
  VERSION_ID : String
  obligationId : String
  obligationKeyId : Option String
  MARKET_ID : String
  DECIMALS_REGISTRY_ID : Option String
  amountRaw : Option Int
  X_ORACLE_ID : String
  CLOCK_ID : String

/-- `buildWithdrawArgs(tx, params, ctx)` (part_000 lines 232-255).  The
source iterates over `params`, pushing one argument per matched test and
`continue`-ing; a parameter matching no test falls through the whole chain
and contributes nothing.  Thrown errors become `Except.error`. -/
def buildWithdrawArgs : List String → WithdrawCtx → Except String (List Arg)
  | [], _ => .ok []
  | p :: rest, ctx =>
    if strHasSub patVersion p then
      (buildWithdrawArgs rest ctx).map (fun args => .obj ctx.VERSION_ID :: args)
    else if strHasSub patObligation p then
      (buildWithdrawArgs rest ctx).map (fun args => .obj ctx.obligationId :: args)
    else if strHasSub patObligationKey p then
      match ctx.obligationKeyId with
      | none => .error "Fungsi butuh ObligationKey tapi tidak ditemukan/di-ENV."
      | some k => (buildWithdrawArgs rest ctx).map (fun args => .obj k :: args)
    else if strHasSub patMarket p then
      (buildWithdrawArgs rest ctx).map (fun args => .obj ctx.MARKET_ID :: args)
    else if strHasSub patRegistry p then
      match ctx.DECIMALS_REGISTRY_ID with
      | none => .error "Fungsi butuh CoinDecimalsRegistry — set DECIMALS_REGISTRY_ID."
      | some r => (buildWithdrawArgs rest ctx).map (fun args => .obj r :: args)
    else if strHasSub patU64Quoted p || strHasSub patU64 p then
      match ctx.amountRaw with
      | none => .error "Fungsi butuh u64 amount tapi amountRaw tidak diset."
      | some a => (buildWithdrawArgs rest ctx).map (fun args => .pureU64 a :: args)
    else if strHasSub patOracle p then
      (buildWithdrawArgs rest ctx).map (fun args => .obj ctx.X_ORACLE_ID :: args)
    else if strHasSub patClock p then
      (buildWithdrawArgs rest ctx).map (fun args => .obj ctx.CLOCK_ID :: args)
    else
      buildWithdrawArgs rest ctx

/-- The argument a single parameter contributes on the success path,
mirroring the test chain of `buildWithdrawArgs`; `none` for a parameter
matching no known role (the source's silent fall-through). -/
def roleArgOf (ctx : WithdrawCtx) (p : String) : Option Arg :=
  if strHasSub patVersion p then some (.obj ctx.VERSION_ID)
  else if strHasSub patObligation p then some (.obj ctx.obligationId)
  else if strHasSub patObligationKey p then ctx.obligationKeyId.map .obj
  else if strHasSub patMarket p then some (.obj ctx.MARKET_ID)
  else if strHasSub patRegistry p then ctx.DECIMALS_REGISTRY_ID.map .obj
  else if strHasSub patU64Quoted p || strHasSub patU64 p then ctx.amountRaw.map .pureU64
  else if strHasSub patOracle p then some (.obj ctx.X_ORACLE_ID)
  else if strHasSub patClock p then some (.obj ctx.CLOCK_ID)
  else none

/-- The error a single parameter forces on the build, mirroring the test
chain of `buildWithdrawArgs`: `some msg` exactly when the parameter's first
matching role test requires a binding (`ObligationKey`, registry, amount)
that is absent, with the source's error message for that role; `none` when
the parameter contributes an argument or is unrecognized. -/
def missingRoleError (ctx : WithdrawCtx) (p : String) : Option String :=
  if strHasSub patVersion p then none
  else if strHasSub patObligation p then none
  else if strHasSub patObligationKey p then
    match ctx.obligationKeyId with
    | none => some "Fungsi butuh ObligationKey tapi tidak ditemukan/di-ENV."
    | some _ => none
  else if strHasSub patMarket p then none
  else if strHasSub patRegistry p then
    match ctx.DECIMALS_REGISTRY_ID with
    | none => some "Fungsi butuh CoinDecimalsRegistry — set DECIMALS_REGISTRY_ID."
    | some _ => none
  else if strHasSub patU64Quoted p || strHasSub patU64 p then
    match ctx.amountRaw with
    | none => some "Fungsi butuh u64 amount tapi amountRaw tidak diset."
    | some _ => none
  else none

/-- A fully-populated binding context used for concrete evaluations. -/
def ctxFull : WithdrawCtx :=
  { VERSION_ID := "0xv", obligationId := "0xo", obligationKeyId := some "0xk"
    MARKET_ID := "0xm", DECIMALS_REGISTRY_ID := some "0xr", amountRaw := some 1
    X_ORACLE_ID := "0xx", CLOCK_ID := "0xc" }

/-- Serialized form of a `&mut TxContext` parameter: every Sui entry
function carries one, and it matches none of the role tests. -/
def txContextParam : String :=
  "\"MutableReference\":\"Struct\":\"address\":\"0x2\",\"module\":\"tx_context\",\"name\":\"TxContext\""

theorem exceptMap_eq_ok {ε α β : Type} (f : α → β) (x : Except ε α) (b : β)
    (h : x.map f = .ok b) : ∃ a, x = .ok a ∧ b = f a := by
  cases x with
  | error e => simp [Except.map] at h
  | ok a => exact ⟨a, rfl, by simpa [Except.map] using h.symm⟩

theorem buildWithdrawArgs_filterMap (params : List String) (ctx : WithdrawCtx)
    (args : List Arg) (h : buildWithdrawArgs params ctx = .ok args) :
    args = params.filterMap (roleArgOf ctx) := by
  induction params generalizing args with
  | nil =>
    simp only [buildWithdrawArgs] at h
    cases h
    rfl
  | cons p rest ih =>
    simp only [buildWithdrawArgs] at h
    simp only [List.filterMap_cons, roleArgOf]
    split_ifs at h with h1 h2 h3 h4 h5 h6 h7 h8
    · obtain ⟨a, ha, rfl⟩ := exceptMap_eq_ok _ _ _ h
      simp [h1, ih a ha]
    · obtain ⟨a, ha, rfl⟩ := exceptMap_eq_ok _ _ _ h
      simp [h1, h2, ih a ha]
    · rcases hk : ctx.obligationKeyId with _ | k
      · rw [hk] at h; cases h
      · rw [hk] at h
        obtain ⟨a, ha, rfl⟩ := exceptMap_eq_ok _ _ _ h
        simp [h1, h2, h3, hk, ih a ha]
    · obtain ⟨a, ha, rfl⟩ := exceptMap_eq_ok _ _ _ h
      simp [h1, h2, h3, h4, ih a ha]
    · rcases hr : ctx.DECIMALS_REGISTRY_ID with _ | r
      · rw [hr] at h; cases h
      · rw [hr] at h
        obtain ⟨a, ha, rfl⟩ := exceptMap_eq_ok _ _ _ h
        simp [h1, h2, h3, h4, h5, hr, ih a ha]
    · rcases hm : ctx.amountRaw with _ | a0
      · rw [hm] at h; cases h
      · rw [hm] at h
        obtain ⟨a, ha, rfl⟩ := exceptMap_eq_ok _ _ _ h
        simp [h1, h2, h3, h4, h5, h6, hm, ih a ha]
    · obtain ⟨a, ha, rfl⟩ := exceptMap_eq_ok _ _ _ h
      simp [h1, h2, h3, h4, h5, h6, h7, ih a ha]
    · obtain ⟨a, ha, rfl⟩ := exceptMap_eq_ok _ _ _ h
      simp [h1, h2, h3, h4, h5, h6, h7, h8, ih a ha]
    · simp [h1, h2, h3, h4, h5, h6, h7, h8, ih args h]

/-- Claim C1 (counterexample): `buildWithdrawArgs` applied to a parameter
list consisting of one `TxContext` parameter succeeds with an EMPTY argument
list — shorter than the one-element parameter list, contradicting
"it never returns a list shorter or longer than the parameter list". -/
theorem buildArguments_arity_counterexample :
    buildWithdrawArgs [txContextParam] ctxFull = Except.ok [] ∧
    ¬ (List.length ([] : List Arg) = List.length [txContextParam]) := by
  constructor
  · rfl
  · decide

/-- Complete characterization of `buildWithdrawArgs`: the build fails with
the descriptive message of the FIRST parameter whose matched role has no
bound value, and succeeds with one argument per recognized parameter (in
order) otherwise.  A variant that silently skipped a matched-but-unbound
parameter would not satisfy this equation. -/
theorem buildWithdrawArgs_characterization (params : List String)
    (ctx : WithdrawCtx) :
    buildWithdrawArgs params ctx =
      match params.findSome? (missingRoleError ctx) with
      | some e => Except.error e
      | none => Except.ok (params.filterMap (roleArgOf ctx)) := by
  induction params with
  | nil => rfl
  | cons p rest ih =>
    rw [List.findSome?_cons]
    simp only [buildWithdrawArgs, missingRoleError, roleArgOf, List.filterMap_cons]
    split_ifs with h1 h2 h3 h4 h5 h6 h7 h8
    · rw [ih]
      cases hf : rest.findSome? (missingRoleError ctx) <;> simp [Except.map]
    · rw [ih]
      cases hf : rest.findSome? (missingRoleError ctx) <;> simp [Except.map]
    · rcases hk : ctx.obligationKeyId with _ | k
      · simp
      · simp only [Option.map_some']
        rw [ih]
        cases hf : rest.findSome? (missingRoleError ctx) <;> simp [Except.map]
    · rw [ih]
      cases hf : rest.findSome? (missingRoleError ctx) <;> simp [Except.map]
    · rcases hr : ctx.DECIMALS_REGISTRY_ID with _ | r
      · simp
      · simp only [Option.map_some']
        rw [ih]
        cases hf : rest.findSome? (missingRoleError ctx) <;> simp [Except.map]
    · rcases ha : ctx.amountRaw with _ | a
      · simp
      · simp only [Option.map_some']
        rw [ih]
        cases hf : rest.findSome? (missingRoleError ctx) <;> simp [Except.map]
    · rw [ih]
      cases hf : rest.findSome? (missingRoleError ctx) <;> simp [Except.map]
    · rw [ih]
      cases hf : rest.findSome? (missingRoleError ctx) <;> simp [Except.map]
    · rw [ih]

/-- Claim C1 (amended): `buildWithdrawArgs` fails — with the source's
descriptive error naming the missing role — exactly when some parameter
matches a role test whose binding is absent (reporting the first such
parameter's message); otherwise it succeeds with exactly one argument, in
parameter order, per parameter matching a known role test, so the result
is never longer than — but, because unrecognized parameters are silently
skipped, may be shorter than — the parameter list. -/
theorem buildArguments_one_arg_per_recognized_param (params : List String)
    (ctx : WithdrawCtx) :
    buildWithdrawArgs params ctx =
      (match params.findSome? (missingRoleError ctx) with
       | some e => Except.error e
       | none => Except.ok (params.filterMap (roleArgOf ctx))) ∧
    ∀ args, buildWithdrawArgs params ctx = .ok args →
      args = params.filterMap (roleArgOf ctx) ∧ args.length ≤ params.length := by
  have hchar := buildWithdrawArgs_characterization params ctx
  refine ⟨hchar, ?_⟩
  intro args h
  rw [hchar] at h
  rcases hf : params.findSome? (missingRoleError ctx) with _ | e
  · rw [hf] at h
    cases h
    exact ⟨rfl, params.length_filterMap_le _⟩
  · rw [hf] at h
    cases h

/-- `ctxFull` with the position capability left unbound. -/
def ctxNoKey : WithdrawCtx := { ctxFull with obligationKeyId := none }

/-- Witness for the amended C1 theorem: a matched `ObligationKey` parameter
with no bound capability makes the build fail with the source's missing-
capability message (before any network call); with all bindings present,
one Version parameter plus one TxContext parameter yield exactly the
Version argument. -/
theorem buildArguments_one_arg_per_recognized_param_witness :
    buildWithdrawArgs [patObligationKey] ctxNoKey =
      Except.error "Fungsi butuh ObligationKey tapi tidak ditemukan/di-ENV." ∧
    ([Arg.obj "0xv"] : List Arg) =
      [patVersion, txContextParam].filterMap (roleArgOf ctxFull) ∧
    ([Arg.obj "0xv"] : List Arg).length ≤ [patVersion, txContextParam].length := by
  constructor
  · rw [(buildArguments_one_arg_per_recognized_param [patObligationKey] ctxNoKey).1]
    rfl
  · exact (buildArguments_one_arg_per_recognized_param
      [patVersion, txContextParam] ctxFull).2 [Arg.obj "0xv"] rfl

/-! ## Probe engine result and the adaptive amount finder
(`findMaxWithdrawable`, part_000 lines 509-530)

`probeEntry` is abstracted to an oracle `probe : Int → SimResult` giving the
dry-run status and error message for a trial amount (the entry point, the
registry and the remaining context are fixed across one search, and the
on-chain state is unchanged, so the oracle is a pure function). -/

/-- The outcome of simulating one transaction: `effects.status.status`
reduced to a flag, plus `effects.status.error || ''`. -/
structure SimResult where
  ok : Bool
  err : String
deriving DecidableEq

/-- The lowered alternation of
`/(health|limit|ELTV|ELVR|insufficient|cannot|over|MoveAbort|EINSUFFICIENT)/i`
used by both phases of `findMaxWithdrawable`. -/
def probeLimitPats : List String :=
  ["health", "limit", "eltv", "elvr", "insufficient", "cannot", "over",
   "moveabort", "einsufficient"]

/-- Phase 1 of `findMaxWithdrawable` (the `while (hi <= capGuess)` loop):
grow `hi` exponentially until the first failure or until the ceiling is
exceeded.  Returns `(lo, hi, probed amounts)`.  `fuel` bounds the number of
loop iterations; `none` models a run needing more iterations than `fuel`
(the JavaScript loop is unbounded and can diverge). -/
def growPhase (probe : Int → SimResult) (capGuess : Int) :
    Nat → Int → Int → Option (Int × Int × List Int)
  | 0, lo, hi => if capGuess < hi then some (lo, hi, []) else none
  | fuel + 1, lo, hi =>
    if capGuess < hi then some (lo, hi, [])
    else
      let p := probe hi
      if p.ok then
        (growPhase probe capGuess fuel hi (hi * 2)).map
          (fun q => (q.1, q.2.1, hi :: q.2.2))
      else if matchesAnyCI probeLimitPats p.err then some (lo, hi, [hi])
      else some (lo, hi, [hi])  -- other errors -> stop and use lo

/-- Phase 2 of `findMaxWithdrawable`: binary search on `[L, R]`, keeping the
best accepted amount (`mid = (L + R) >> 1n` is floor division by two, which
is `Int` division).  Both failure classes narrow `R` identically, mirroring
the source.  Returns `(best, probed amounts)`. -/
def bsearchPhase (probe : Int → SimResult) (L R best : Int) : Int × List Int :=
  if _h : L ≤ R then
    let mid := (L + R) / 2
    let p := probe mid
    if p.ok then
      let r := bsearchPhase probe (mid + 1) R mid
      (r.1, mid :: r.2)
    else if matchesAnyCI probeLimitPats p.err then
      let r := bsearchPhase probe L (mid - 1) best
      (r.1, mid :: r.2)
    else  -- treat as fail
      let r := bsearchPhase probe L (mid - 1) best
      (r.1, mid :: r.2)
  else (best, [])
termination_by (R + 1 - L).toNat
decreasing_by all_goals omega

/-- `findMaxWithdrawable(client, sender, selected, registryId, assetType,
ctxFixed, startGuess, capGuess)` with the probe calls instrumented: returns
the result together with the amounts probed in each phase. -/
def findMaxWithdrawableRun (probe : Int → SimResult) (startGuess capGuess : Int)
    (fuel : Nat) : Option (Int × List Int × List Int) :=
  match growPhase probe capGuess fuel 0 startGuess with
  | none => none
  | some (lo, hi, t1) =>
    if lo = 0 then some (0, t1, [])
    else
      let r := bsearchPhase probe lo (hi - 1) lo
      some (r.1, t1, r.2)

/-- `findMaxWithdrawable` proper: just the discovered amount. -/
def findMaxWithdrawable (probe : Int → SimResult) (startGuess capGuess : Int)
    (fuel : Nat) : Option Int :=
  (findMaxWithdrawableRun probe startGuess capGuess fuel).map (fun r => r.1)

/-! ### Unfolding equations and invariants for `bsearchPhase` -/

theorem bsearchPhase_of_not_le (p : Int → SimResult) {L R best : Int}
    (h : ¬ L ≤ R) : bsearchPhase p L R best = (best, []) := by
  rw [bsearchPhase]
  simp [h]

theorem bsearchPhase_of_ok (p : Int → SimResult) {L R best : Int}
    (h : L ≤ R) (hok : (p ((L + R) / 2)).ok = true) :
    bsearchPhase p L R best =
      ((bsearchPhase p ((L + R) / 2 + 1) R ((L + R) / 2)).1,
       (L + R) / 2 :: (bsearchPhase p ((L + R) / 2 + 1) R ((L + R) / 2)).2) := by
  rw [bsearchPhase]
  simp [h, hok]

theorem bsearchPhase_of_fail (p : Int → SimResult) {L R best : Int}
    (h : L ≤ R) (hok : (p ((L + R) / 2)).ok = false) :
    bsearchPhase p L R best =
      ((bsearchPhase p L ((L + R) / 2 - 1) best).1,
       (L + R) / 2 :: (bsearchPhase p L ((L + R) / 2 - 1) best).2) := by
  rw [bsearchPhase]
  simp only [h, dite_true, dif_pos]
  rw [if_neg (by simp [hok])]
  split <;> rfl

theorem bsearchPhase_ge (p : Int → SimResult) (L R best : Int)
    (hb : best ≤ L) : best ≤ (bsearchPhase p L R best).1 := by
  induction L, R, best using bsearchPhase.induct p with
  | case1 L R best h mid pr hok ih =>
    rw [bsearchPhase_of_ok p h hok]
    have hmid : L ≤ (L + R) / 2 := by omega
    exact le_trans (le_trans hb hmid) (ih (by omega))
  | case2 L R best h mid pr hok hm ih =>
    rw [bsearchPhase_of_fail p h (by simpa using hok)]
    exact ih hb
  | case3 L R best h mid pr hok hm ih =>
    rw [bsearchPhase_of_fail p h (by simpa using hok)]
    exact ih hb
  | case4 L R best h =>
    rw [bsearchPhase_of_not_le p h]

theorem bsearchPhase_le (p : Int → SimResult) (L R best : Int) :
    (bsearchPhase p L R best).1 ≤ max best R := by
  induction L, R, best using bsearchPhase.induct p with
  | case1 L R best h mid pr hok ih =>
    rw [bsearchPhase_of_ok p h hok]
    have : (L + R) / 2 ≤ R := by omega
    exact le_trans ih (by simp only [le_max_iff]; omega)
  | case2 L R best h mid pr hok hm ih =>
    rw [bsearchPhase_of_fail p h (by simpa using hok)]
    refine le_trans ih ?_
    have : (L + R) / 2 - 1 ≤ R := by omega
    simp only [max_le_iff, le_max_iff]
    omega
  | case3 L R best h mid pr hok hm ih =>
    rw [bsearchPhase_of_fail p h (by simpa using hok)]
    refine le_trans ih ?_
    have : (L + R) / 2 - 1 ≤ R := by omega
    simp only [max_le_iff, le_max_iff]
    omega
  | case4 L R best h =>
    rw [bsearchPhase_of_not_le p h]
    exact le_max_left best R

theorem bsearchPhase_ok_result (p : Int → SimResult) (L R best : Int)
    (hb : (p best).ok = true) : (p (bsearchPhase p L R best).1).ok = true := by
  induction L, R, best using bsearchPhase.induct p with
  | case1 L R best h mid pr hok ih =>
    rw [bsearchPhase_of_ok p h hok]
    exact ih hok
  | case2 L R best h mid pr hok hm ih =>
    rw [bsearchPhase_of_fail p h (by simpa using hok)]
    exact ih hb
  | case3 L R best h mid pr hok hm ih =>
    rw [bsearchPhase_of_fail p h (by simpa using hok)]
    exact ih hb
  | case4 L R best h =>
    rw [bsearchPhase_of_not_le p h]
    exact hb

theorem bsearchPhase_trace_mem (p : Int → SimResult) (L R best : Int) :
    ∀ a ∈ (bsearchPhase p L R best).2, L ≤ a ∧ a ≤ R := by
  induction L, R, best using bsearchPhase.induct p with
  | case1 L R best h mid pr hok ih =>
    rw [bsearchPhase_of_ok p h hok]
    intro a ha
    rcases List.mem_cons.mp ha with rfl | ha
    · omega
    · have := ih a ha
      omega
  | case2 L R best h mid pr hok hm ih =>
    rw [bsearchPhase_of_fail p h (by simpa using hok)]
    intro a ha
    rcases List.mem_cons.mp ha with rfl | ha
    · omega
    · have := ih a ha
      omega
  | case3 L R best h mid pr hok hm ih =>
    rw [bsearchPhase_of_fail p h (by simpa using hok)]
    intro a ha
    rcases List.mem_cons.mp ha with rfl | ha
    · omega
    · have := ih a ha
      omega
  | case4 L R best h =>
    rw [bsearchPhase_of_not_le p h]
    intro a ha
    simp at ha

/-- A structurally recursive evaluator for `bsearchPhase` (well-founded
definitions do not reduce definitionally); `bsearchPhase_eq_fuel` shows it
computes the same function once the fuel covers the interval length. -/
def bsearchFuel (p : Int → SimResult) : Nat → Int → Int → Int → Int × List Int
  | 0, _, _, best => (best, [])
  | n + 1, L, R, best =>
    if L ≤ R then
      let mid := (L + R) / 2
      if (p mid).ok then
        let r := bsearchFuel p n (mid + 1) R mid
        (r.1, mid :: r.2)
      else
        let r := bsearchFuel p n L (mid - 1) best
        (r.1, mid :: r.2)
    else (best, [])

theorem bsearchPhase_eq_fuel (p : Int → SimResult) :
    ∀ (n : Nat) (L R best : Int), (R + 1 - L).toNat ≤ n →
      bsearchPhase p L R best = bsearchFuel p n L R best := by
  intro n
  induction n with
  | zero =>
    intro L R best hn
    have hnle : ¬ L ≤ R := by omega
    rw [bsearchPhase_of_not_le p hnle]
    rfl
  | succ n ih =>
    intro L R best hn
    by_cases h : L ≤ R
    · by_cases hok : (p ((L + R) / 2)).ok = true
      · rw [bsearchPhase_of_ok p h hok,
            ih ((L + R) / 2 + 1) R ((L + R) / 2) (by omega)]
        simp only [bsearchFuel]
        rw [if_pos h, if_pos hok]
      · have hok' : (p ((L + R) / 2)).ok = false := by
          cases hv : (p ((L + R) / 2)).ok
          · rfl
          · exact absurd hv hok
        rw [bsearchPhase_of_fail p h hok',
            ih L ((L + R) / 2 - 1) best (by omega)]
        simp only [bsearchFuel]
        rw [if_pos h, if_neg hok]
    · rw [bsearchPhase_of_not_le p h]
      simp [bsearchFuel, h]

/-! ### Invariants of the exploration phase `growPhase` -/

theorem growPhase_inv (p : Int → SimResult) (c : Int) :
    ∀ fuel lo hi lo' hi' t, 0 ≤ lo → lo < hi →
      growPhase p c fuel lo hi = some (lo', hi', t) →
      0 ≤ lo' ∧ lo' < hi' ∧ lo ≤ lo' := by
  intro fuel
  induction fuel with
  | zero =>
    intro lo hi lo' hi' t h0 hlt h
    simp only [growPhase] at h
    split at h
    · cases h
      exact ⟨h0, hlt, le_refl _⟩
    · cases h
  | succ fuel ih =>
    intro lo hi lo' hi' t h0 hlt h
    simp only [growPhase] at h
    split at h
    · cases h
      exact ⟨h0, hlt, le_refl _⟩
    · split at h
      · rcases Option.map_eq_some'.mp h with ⟨⟨qlo, qhi, qt⟩, hq, hval⟩
        cases hval
        have := ih hi (hi * 2) qlo qhi qt (by omega) (by omega) hq
        exact ⟨this.1, this.2.1, by omega⟩
      · split at h <;>
        · cases h
          exact ⟨h0, hlt, le_refl _⟩

theorem growPhase_ok_inv (p : Int → SimResult) (c : Int) :
    ∀ fuel lo hi lo' hi' t, (lo = 0 ∨ (p lo).ok = true) →
      growPhase p c fuel lo hi = some (lo', hi', t) →
      (lo' = 0 ∨ (p lo').ok = true) := by
  intro fuel
  induction fuel with
  | zero =>
    intro lo hi lo' hi' t hok h
    simp only [growPhase] at h
    split at h
    · cases h; exact hok
    · cases h
  | succ fuel ih =>
    intro lo hi lo' hi' t hok h
    simp only [growPhase] at h
    split at h
    · cases h; exact hok
    · by_cases hp : (p hi).ok = true
      · rw [if_pos hp] at h
        rcases Option.map_eq_some'.mp h with ⟨⟨qlo, qhi, qt⟩, hq, hval⟩
        cases hval
        exact ih hi (hi * 2) qlo qhi qt (Or.inr hp) hq
      · rw [if_neg hp] at h
        split at h <;>
        · cases h; exact hok

theorem growPhase_lo_of_fail (p : Int → SimResult) (c : Int)
    (fuel : Nat) (s lo hi : Int) (t : List Int) (hsc : s ≤ c)
    (hfail : (p s).ok = false)
    (h : growPhase p c fuel 0 s = some (lo, hi, t)) : lo = 0 := by
  cases fuel with
  | zero =>
    simp only [growPhase] at h
    rw [if_neg (by omega)] at h
    cases h
  | succ fuel =>
    simp only [growPhase] at h
    rw [if_neg (by omega)] at h
    rw [if_neg (by simp [hfail])] at h
    split at h <;> · cases h; rfl

theorem growPhase_lo_of_ok (p : Int → SimResult) (c : Int)
    (fuel : Nat) (s lo hi : Int) (t : List Int) (hs : 1 ≤ s) (hsc : s ≤ c)
    (hok : (p s).ok = true)
    (h : growPhase p c fuel 0 s = some (lo, hi, t)) : s ≤ lo := by
  cases fuel with
  | zero =>
    simp only [growPhase] at h
    rw [if_neg (by omega)] at h
    cases h
  | succ fuel =>
    simp only [growPhase] at h
    rw [if_neg (by omega), if_pos hok] at h
    rcases Option.map_eq_some'.mp h with ⟨⟨qlo, qhi, qt⟩, hq, hval⟩
    cases hval
    exact (growPhase_inv p c fuel s (s * 2) qlo qhi qt (by omega) (by omega) hq).2.2

theorem growPhase_trace_le_cap (p : Int → SimResult) (c : Int) :
    ∀ fuel lo hi lo' hi' t,
      growPhase p c fuel lo hi = some (lo', hi', t) → ∀ a ∈ t, a ≤ c := by
  intro fuel
  induction fuel with
  | zero =>
    intro lo hi lo' hi' t h
    simp only [growPhase] at h
    split at h
    · cases h
      intro a ha
      simp at ha
    · cases h
  | succ fuel ih =>
    intro lo hi lo' hi' t h
    simp only [growPhase] at h
    by_cases hcap : c < hi
    · rw [if_pos hcap] at h
      cases h
      intro a ha
      simp at ha
    · rw [if_neg hcap] at h
      split at h
      · rcases Option.map_eq_some'.mp h with ⟨⟨qlo, qhi, qt⟩, hq, hval⟩
        cases hval
        intro a ha
        rcases List.mem_cons.mp ha with rfl | ha
        · omega
        · exact ih hi (hi * 2) qlo qhi qt hq a ha
      · split at h <;>
        · cases h
          intro a ha
          rcases List.mem_cons.mp ha with rfl | ha
          · omega
          · simp at ha

theorem growPhase_hi_le (p : Int → SimResult) (c : Int) :
    ∀ fuel lo hi lo' hi' t,
      growPhase p c fuel lo hi = some (lo', hi', t) → hi' ≤ max hi (2 * c) := by
  intro fuel
  induction fuel with
  | zero =>
    intro lo hi lo' hi' t h
    simp only [growPhase] at h
    split at h
    · cases h
      exact le_max_left _ _
    · cases h
  | succ fuel ih =>
    intro lo hi lo' hi' t h
    simp only [growPhase] at h
    split at h
    · cases h
      exact le_max_left _ _
    · split at h
      · rcases Option.map_eq_some'.mp h with ⟨⟨qlo, qhi, qt⟩, hq, hval⟩
        cases hval
        have := ih hi (hi * 2) qlo qhi qt hq
        simp only [max_le_iff, le_max_iff] at this ⊢
        omega
      · split at h <;>
        · cases h
          exact le_max_left _ _

theorem growPhase_lo_le (p : Int → SimResult) (c : Int) :
    ∀ fuel lo hi lo' hi' t,
      growPhase p c fuel lo hi = some (lo', hi', t) → lo' ≤ max lo c := by
  intro fuel
  induction fuel with
  | zero =>
    intro lo hi lo' hi' t h
    simp only [growPhase] at h
    split at h
    · cases h
      exact le_max_left _ _
    · cases h
  | succ fuel ih =>
    intro lo hi lo' hi' t h
    simp only [growPhase] at h
    split at h
    · cases h
      exact le_max_left _ _
    · split at h
      · rcases Option.map_eq_some'.mp h with ⟨⟨qlo, qhi, qt⟩, hq, hval⟩
        cases hval
        have := ih hi (hi * 2) qlo qhi qt hq
        simp only [max_le_iff, le_max_iff] at this ⊢
        omega
      · split at h <;>
        · cases h
          exact le_max_left _ _

theorem growPhase_total (p : Int → SimResult) (c : Int) :
    ∀ (fuel : Nat) (lo hi : Int), 1 ≤ hi → c < hi + (fuel : Int) →
      (growPhase p c fuel lo hi).isSome := by
  intro fuel
  induction fuel with
  | zero =>
    intro lo hi h1 hf
    simp only [growPhase]
    rw [if_pos (by omega)]
    rfl
  | succ fuel ih =>
    intro lo hi h1 hf
    simp only [growPhase]
    split
    · rfl
    · split
      · have := ih hi (hi * 2) (by omega) (by omega)
        rcases Option.isSome_iff_exists.mp this with ⟨q, hq⟩
        rw [hq]
        rfl
      · split <;> rfl

theorem growPhase_zero_start (p : Int → SimResult) (c : Int) :
    ∀ fuel lo hi t, growPhase p c fuel 0 0 = some (lo, hi, t) →
      lo = 0 ∧ hi = 0 := by
  intro fuel
  induction fuel with
  | zero =>
    intro lo hi t h
    simp only [growPhase] at h
    split at h
    · cases h; exact ⟨rfl, rfl⟩
    · cases h
  | succ fuel ih =>
    intro lo hi t h
    simp only [growPhase] at h
    split at h
    · cases h; exact ⟨rfl, rfl⟩
    · split at h
      · rw [show (0 : Int) * 2 = 0 by norm_num] at h
        rcases Option.map_eq_some'.mp h with ⟨⟨qlo, qhi, qt⟩, hq, hval⟩
        cases hval
        exact ih qlo qhi qt hq
      · split at h <;> · cases h; exact ⟨rfl, rfl⟩

theorem growPhase_of_cap_lt (p : Int → SimResult) (c : Int) (fuel : Nat)
    (lo hi : Int) (h : c < hi) : growPhase p c fuel lo hi = some (lo, hi, []) := by
  cases fuel <;> simp [growPhase, h]

/-- Raising the ceiling from `c1` to `c2` either stops exploration at the
same state, or continues past `hi1` so that the new `lo2` is at least `hi1`. -/
theorem growPhase_cap_compare (p : Int → SimResult) (c1 c2 : Int) (hc : c1 ≤ c2) :
    ∀ (f1 f2 : Nat) (lo hi lo1 hi1 lo2 hi2 : Int) (t1 t2 : List Int),
      0 ≤ lo → lo < hi →
      growPhase p c1 f1 lo hi = some (lo1, hi1, t1) →
      growPhase p c2 f2 lo hi = some (lo2, hi2, t2) →
      (lo1 = lo2 ∧ hi1 = hi2) ∨ hi1 ≤ lo2 := by
  intro f1
  induction f1 with
  | zero =>
    intro f2 lo hi lo1 hi1 lo2 hi2 t1 t2 h0 hlt h1 h2
    simp only [growPhase] at h1
    split at h1
    case isFalse => cases h1
    case isTrue hcap1 =>
    cases h1
    by_cases hcap2 : c2 < hi
    · rw [growPhase_of_cap_lt p c2 f2 _ _ hcap2] at h2
      cases h2
      exact Or.inl ⟨rfl, rfl⟩
    · cases f2 with
      | zero =>
        simp only [growPhase] at h2
        rw [if_neg hcap2] at h2
        cases h2
      | succ f2 =>
        simp only [growPhase] at h2
        rw [if_neg hcap2] at h2
        by_cases hp : (p hi).ok = true
        · rw [if_pos hp] at h2
          rcases Option.map_eq_some'.mp h2 with ⟨⟨qlo, qhi, qt⟩, hq, hval⟩
          cases hval
          have := growPhase_inv p c2 f2 hi (hi * 2) qlo qhi qt (by omega) (by omega) hq
          exact Or.inr this.2.2
        · rw [if_neg hp] at h2
          split at h2 <;> · cases h2; exact Or.inl ⟨rfl, rfl⟩
  | succ f ih =>
    intro f2 lo hi lo1 hi1 lo2 hi2 t1 t2 h0 hlt h1 h2
    by_cases hcap1 : c1 < hi
    · rw [growPhase_of_cap_lt p c1 (f + 1) _ _ hcap1] at h1
      cases h1
      by_cases hcap2 : c2 < hi
      · rw [growPhase_of_cap_lt p c2 f2 _ _ hcap2] at h2
        cases h2
        exact Or.inl ⟨rfl, rfl⟩
      · cases f2 with
        | zero =>
          simp only [growPhase] at h2
          rw [if_neg hcap2] at h2
          cases h2
        | succ f2 =>
          simp only [growPhase] at h2
          rw [if_neg hcap2] at h2
          by_cases hp : (p hi).ok = true
          · rw [if_pos hp] at h2
            rcases Option.map_eq_some'.mp h2 with ⟨⟨qlo, qhi, qt⟩, hq, hval⟩
            cases hval
            have := growPhase_inv p c2 f2 hi (hi * 2) qlo qhi qt (by omega) (by omega) hq
            exact Or.inr this.2.2
          · rw [if_neg hp] at h2
            split at h2 <;> · cases h2; exact Or.inl ⟨rfl, rfl⟩
    · have hcap2 : ¬ c2 < hi := by omega
      simp only [growPhase] at h1
      rw [if_neg hcap1] at h1
      cases f2 with
      | zero =>
        simp only [growPhase] at h2
        rw [if_neg hcap2] at h2
        cases h2
      | succ f2 =>
        simp only [growPhase] at h2
        rw [if_neg hcap2] at h2
        by_cases hp : (p hi).ok = true
        · rw [if_pos hp] at h1
          rw [if_pos hp] at h2
          rcases Option.map_eq_some'.mp h1 with ⟨⟨q1lo, q1hi, q1t⟩, hq1, hval1⟩
          cases hval1
          rcases Option.map_eq_some'.mp h2 with ⟨⟨q2lo, q2hi, q2t⟩, hq2, hval2⟩
          cases hval2
          exact ih f2 hi (hi * 2) q1lo q1hi q2lo q2hi q1t q2t (by omega) (by omega) hq1 hq2
        · rw [if_neg hp] at h1
          rw [if_neg hp] at h2
          split at h1 <;> split at h2 <;>
          · cases h1; cases h2; exact Or.inl ⟨rfl, rfl⟩

/-- Characterization of one `findMaxWithdrawable` run in terms of its phases. -/
theorem findMaxRun_eq (p : Int → SimResult) (s c : Int) (fuel : Nat)
    (r : Int) (t1 t2 : List Int)
    (h : findMaxWithdrawableRun p s c fuel = some (r, t1, t2)) :
    ∃ lo hi, growPhase p c fuel 0 s = some (lo, hi, t1) ∧
      ((lo = 0 ∧ r = 0 ∧ t2 = []) ∨
       (lo ≠ 0 ∧ r = (bsearchPhase p lo (hi - 1) lo).1 ∧
        t2 = (bsearchPhase p lo (hi - 1) lo).2)) := by
  unfold findMaxWithdrawableRun at h
  rcases hg : growPhase p c fuel 0 s with _ | ⟨⟨lo, hi, t⟩⟩
  · rw [hg] at h
    cases h
  · rw [hg] at h
    dsimp only at h
    by_cases hl : lo = 0
    · rw [if_pos hl] at h
      cases h
      exact ⟨lo, hi, rfl, Or.inl ⟨hl, rfl, rfl⟩⟩
    · rw [if_neg hl] at h
      cases h
      exact ⟨lo, hi, rfl, Or.inr ⟨hl, rfl, rfl⟩⟩

theorem findMax_eq (p : Int → SimResult) (s c : Int) (fuel : Nat) (v : Int)
    (h : findMaxWithdrawable p s c fuel = some v) :
    ∃ lo hi t, growPhase p c fuel 0 s = some (lo, hi, t) ∧
      ((lo = 0 ∧ v = 0) ∨ (lo ≠ 0 ∧ v = (bsearchPhase p lo (hi - 1) lo).1)) := by
  unfold findMaxWithdrawable at h
  rcases Option.map_eq_some'.mp h with ⟨⟨r, t1, t2⟩, hr, hv⟩
  cases hv
  rcases findMaxRun_eq p s c fuel r t1 t2 hr with ⟨lo, hi, hg, hcase⟩
  rcases hcase with ⟨hl, hv2, _⟩ | ⟨hl, hv2, _⟩
  · exact ⟨lo, hi, t1, hg, Or.inl ⟨hl, hv2⟩⟩
  · exact ⟨lo, hi, t1, hg, Or.inr ⟨hl, hv2⟩⟩

/-! ### Concrete probe oracles for witnesses and counterexamples -/

/-- A probe accepting every amount. -/
def alwaysOkProbe : Int → SimResult := fun _ => ⟨true, ""⟩

/-- A probe accepting amounts up to 3, failing with a resource-limit message. -/
def probeLeThree : Int → SimResult := fun a => ⟨decide (a ≤ 3), "MoveAbort: over limit"⟩

/-- A probe accepting amounts up to 5, failing with a resource-limit message. -/
def probeLeFive : Int → SimResult := fun a => ⟨decide (a ≤ 5), "MoveAbort: over limit"⟩

/-- A probe accepting only 1, failing with a message that matches NO pattern. -/
def probeOtherErr : Int → SimResult := fun a => ⟨decide (a ≤ 1), "xyz"⟩

/-- Same acceptance set as `probeOtherErr`, failing with a resource-limit message. -/
def probeLimitErr : Int → SimResult := fun a => ⟨decide (a ≤ 1), "MoveAbort: over limit"⟩

/-- Evaluation helper: a concrete `findMaxWithdrawableRun` with a non-zero
exploration result, computed through the structural evaluator `bsearchFuel`. -/
theorem findMaxRun_eval (p : Int → SimResult) (s c : Int) (fuel n : Nat)
    (lo hi : Int) (t1 : List Int) (res : Int × List Int × List Int)
    (hg : growPhase p c fuel 0 s = some (lo, hi, t1)) (hl : lo ≠ 0)
    (hn : (hi - 1 + 1 - lo).toNat ≤ n)
    (hres : ((bsearchFuel p n lo (hi - 1) lo).1, t1,
             (bsearchFuel p n lo (hi - 1) lo).2) = res) :
    findMaxWithdrawableRun p s c fuel = some res := by
  unfold findMaxWithdrawableRun
  rw [hg]
  dsimp only
  rw [if_neg hl, bsearchPhase_eq_fuel p n lo (hi - 1) lo hn, hres]

theorem findMax_eval (p : Int → SimResult) (s c : Int) (fuel n : Nat)
    (lo hi : Int) (t1 : List Int) (v : Int)
    (hg : growPhase p c fuel 0 s = some (lo, hi, t1)) (hl : lo ≠ 0)
    (hn : (hi - 1 + 1 - lo).toNat ≤ n)
    (hres : (bsearchFuel p n lo (hi - 1) lo).1 = v) :
    findMaxWithdrawable p s c fuel = some v := by
  unfold findMaxWithdrawable
  rw [findMaxRun_eval p s c fuel n lo hi t1
    ((bsearchFuel p n lo (hi - 1) lo).1, t1, (bsearchFuel p n lo (hi - 1) lo).2)
    hg hl hn rfl]
  rw [hres]
  rfl

theorem eval_run_probeLeThree :
    findMaxWithdrawableRun probeLeThree 1 10 20 = some (3, [1, 2, 4], [2, 3]) :=
  findMaxRun_eval probeLeThree 1 10 20 4 2 4 [1, 2, 4] _ rfl (by decide)
    (by decide) rfl

theorem eval_findMax_probeLeThree :
    findMaxWithdrawable probeLeThree 1 10 20 = some 3 :=
  findMax_eval probeLeThree 1 10 20 4 2 4 [1, 2, 4] 3 rfl (by decide)
    (by decide) rfl

theorem eval_run_alwaysOk :
    findMaxWithdrawableRun alwaysOkProbe 10 10 30 =
      some (19, [10], [14, 17, 18, 19]) :=
  findMaxRun_eval alwaysOkProbe 10 10 30 16 10 20 [10] _ rfl (by decide)
    (by decide) rfl

theorem eval_findMax_probeOtherErr :
    findMaxWithdrawable probeOtherErr 1 10 32 = some 1 :=
  findMax_eval probeOtherErr 1 10 32 2 1 2 [1, 2] 1 rfl (by decide)
    (by decide) rfl

theorem eval_findMax_probeLeFive_cap2 :
    findMaxWithdrawable probeLeFive 1 2 20 = some 3 :=
  findMax_eval probeLeFive 1 2 20 4 2 4 [1, 2] 3 rfl (by decide)
    (by decide) rfl

theorem eval_findMax_probeLeFive_cap10 :
    findMaxWithdrawable probeLeFive 1 10 20 = some 5 :=
  findMax_eval probeLeFive 1 10 20 8 4 8 [1, 2, 4, 8] 5 rfl (by decide)
    (by decide) rfl

/-- Claim C2: a non-zero amount returned by `findMaxWithdrawable` was accepted
by a probe during the search, so probing it again (same oracle, unchanged
state) is accepted; and (for a start guess in the unsigned range `1 ≤ s ≤ c`
that the script uses) the result is zero exactly when the initial
start-guess probe fails. -/
theorem findMax_roundtrip_and_zero (p : Int → SimResult) (s c : Int) (fuel : Nat)
    (v : Int) (h : findMaxWithdrawable p s c fuel = some v) :
    (v ≠ 0 → (p v).ok = true) ∧ (1 ≤ s → s ≤ c → (v = 0 ↔ (p s).ok = false)) := by
  rcases findMax_eq p s c fuel v h with ⟨lo, hi, t, hg, hcase⟩
  rcases hcase with ⟨hl, rfl⟩ | ⟨hl, rfl⟩
  · constructor
    · intro hv
      exact absurd rfl hv
    · intro hs hsc
      constructor
      · intro _
        cases hpv : (p s).ok
        · rfl
        · have := growPhase_lo_of_ok p c fuel s lo hi t hs hsc hpv hg
          omega
      · intro _
        rfl
  · have hok_lo : (p lo).ok = true := by
      rcases growPhase_ok_inv p c fuel 0 s lo hi t (Or.inl rfl) hg with h0 | hok
      · exact absurd h0 hl
      · exact hok
    constructor
    · intro _
      exact bsearchPhase_ok_result p lo (hi - 1) lo hok_lo
    · intro hs hsc
      have hinv := growPhase_inv p c fuel 0 s lo hi t le_rfl (by omega) hg
      have hge := bsearchPhase_ge p lo (hi - 1) lo le_rfl
      have hps : (p s).ok = true := by
        cases hpv : (p s).ok
        · exact absurd (growPhase_lo_of_fail p c fuel s lo hi t hsc hpv hg) hl
        · rfl
      constructor
      · intro hzero
        omega
      · intro hfalse
        rw [hps] at hfalse
        cases hfalse

/-- Witness for C2: with `probeLeThree`, start 1, ceiling 10, the search
returns 3; 3 probes as accepted, and the zero characterization holds. -/
theorem findMax_roundtrip_and_zero_witness :
    (probeLeThree 3).ok = true ∧ ((3 : Int) = 0 ↔ (probeLeThree 1).ok = false) := by
  have h := findMax_roundtrip_and_zero probeLeThree 1 10 20 3
    eval_findMax_probeLeThree
  exact ⟨h.1 (by decide), h.2 (by decide) (by decide)⟩

/-- Claim C3 (counterexample): with a probe that accepts everything, start
guess 10 and ceiling 10, the binary-search phase probes 14, 17, 18, 19 and
the function returns 19 — probes and result EXCEED the ceiling 10. -/
theorem findMax_exceeds_ceiling_counterexample :
    findMaxWithdrawableRun alwaysOkProbe 10 10 30 =
      some (19, [10], [14, 17, 18, 19]) ∧ ¬ ((19 : Int) ≤ 10) :=
  ⟨eval_run_alwaysOk, by decide⟩

/-- Claim C3 (amended): for `1 ≤ startGuess ≤ capGuess`, every
exploration-phase probe is at most the ceiling, while binary-search-phase
probes and the returned value are only bounded by `2·capGuess − 1` (the
search interval extends to `hi − 1` where `hi` may reach `2·capGuess`). -/
theorem findMax_bounded_by_twice_ceiling (p : Int → SimResult) (s c : Int)
    (fuel : Nat) (r : Int) (t1 t2 : List Int) (hs : 1 ≤ s) (hsc : s ≤ c)
    (h : findMaxWithdrawableRun p s c fuel = some (r, t1, t2)) :
    (∀ a ∈ t1, a ≤ c) ∧ (∀ a ∈ t2, a ≤ 2 * c - 1) ∧ 0 ≤ r ∧ r ≤ 2 * c - 1 := by
  rcases findMaxRun_eq p s c fuel r t1 t2 h with ⟨lo, hi, hg, hcase⟩
  have ht1 := growPhase_trace_le_cap p c fuel 0 s lo hi t1 hg
  rcases hcase with ⟨hl, rfl, rfl⟩ | ⟨hl, hrv, ht2⟩
  · refine ⟨ht1, ?_, le_refl 0, by omega⟩
    intro a ha
    simp at ha
  · have hinv := growPhase_inv p c fuel 0 s lo hi t1 le_rfl (by omega) hg
    have hhi := growPhase_hi_le p c fuel 0 s lo hi t1 hg
    rw [max_eq_right (by omega : s ≤ 2 * c)] at hhi
    have hmem := bsearchPhase_trace_mem p lo (hi - 1) lo
    have hge := bsearchPhase_ge p lo (hi - 1) lo le_rfl
    have hble := bsearchPhase_le p lo (hi - 1) lo
    rw [max_eq_right (by omega : lo ≤ hi - 1)] at hble
    refine ⟨ht1, ?_, by omega, by omega⟩
    intro a ha
    rw [ht2] at ha
    have := hmem a ha
    omega

/-- Witness for the amended C3 theorem with `probeLeThree`, start 1,
ceiling 10 (run returns 3 with traces `[1, 2, 4]` and `[2, 3]`). -/
theorem findMax_bounded_by_twice_ceiling_witness :
    (∀ a ∈ [(1 : Int), 2, 4], a ≤ 10) ∧
    (∀ a ∈ [(2 : Int), 3], a ≤ 2 * 10 - 1) ∧
    (0 : Int) ≤ 3 ∧ (3 : Int) ≤ 2 * 10 - 1 :=
  findMax_bounded_by_twice_ceiling probeLeThree 1 10 20 3 [1, 2, 4] [2, 3]
    (by decide) (by decide) eval_run_probeLeThree

/-- Claim C4 (counterexample): the probe accepts 1 and rejects 2 with the
message `"xyz"`, which does NOT match the resource-limit pattern; the claim
says the search must then yield zero, but it proceeds to the binary-search
phase with the last accepted value and returns 1. -/
theorem findMax_other_error_counterexample :
    findMaxWithdrawable probeOtherErr 1 10 32 = some 1 ∧
    matchesAnyCI probeLimitPats "xyz" = false ∧ (1 : Int) ≠ 0 :=
  ⟨eval_findMax_probeOtherErr, by decide, by decide⟩

theorem growPhase_err_irrelevant (p q : Int → SimResult) (c : Int)
    (hpq : ∀ a, (p a).ok = (q a).ok) :
    ∀ (fuel : Nat) (lo hi : Int),
      growPhase p c fuel lo hi = growPhase q c fuel lo hi := by
  intro fuel
  induction fuel with
  | zero =>
    intro lo hi
    simp only [growPhase]
  | succ fuel ih =>
    intro lo hi
    simp only [growPhase]
    split
    · rfl
    · by_cases hp : (p hi).ok = true
      · rw [if_pos hp, if_pos ((hpq hi) ▸ hp), ih]
      · rw [if_neg hp, if_neg (fun hq => hp ((hpq hi) ▸ hq))]
        simp only [ite_self]

theorem bsearchPhase_err_irrelevant (p q : Int → SimResult)
    (hpq : ∀ a, (p a).ok = (q a).ok) :
    ∀ L R best, bsearchPhase p L R best = bsearchPhase q L R best := by
  intro L R best
  induction L, R, best using bsearchPhase.induct p with
  | case1 L R best h mid pr hok ih =>
    rw [bsearchPhase_of_ok p h hok,
        bsearchPhase_of_ok q h ((hpq ((L + R) / 2)) ▸ hok), ih]
  | case2 L R best h mid pr hok hm ih =>
    rw [bsearchPhase_of_fail p h (by simpa using hok),
        bsearchPhase_of_fail q h
          ((hpq ((L + R) / 2)) ▸ (by simpa using hok : (p ((L + R) / 2)).ok = false)),
        ih]
  | case3 L R best h mid pr hok hm ih =>
    rw [bsearchPhase_of_fail p h (by simpa using hok),
        bsearchPhase_of_fail q h
          ((hpq ((L + R) / 2)) ▸ (by simpa using hok : (p ((L + R) / 2)).ok = false)),
        ih]
  | case4 L R best h =>
    rw [bsearchPhase_of_not_le p h, bsearchPhase_of_not_le q h]

/-- Claim C4 (amended): on ANY phase-1 probe failure — resource-limit or
other — exploration stops and the search continues into the binary-search
phase with the last accepted value, exactly as for a resource-limit
rejection; the result depends only on which amounts the oracle accepts,
never on the error classification.  It yields zero exactly when no probe
was accepted. -/
theorem findMax_ignores_error_class (p q : Int → SimResult) (s c : Int)
    (fuel : Nat) (hpq : ∀ a, (p a).ok = (q a).ok) :
    findMaxWithdrawable p s c fuel = findMaxWithdrawable q s c fuel := by
  unfold findMaxWithdrawable findMaxWithdrawableRun
  rw [growPhase_err_irrelevant p q c hpq fuel 0 s]
  rcases growPhase q c fuel 0 s with _ | ⟨⟨lo, hi, t⟩⟩
  · rfl
  · dsimp only
    rw [bsearchPhase_err_irrelevant p q hpq lo (hi - 1) lo]

/-- Witness for the amended C4 theorem: `probeOtherErr` (error `"xyz"`) and
`probeLimitErr` (resource-limit error) accept the same amounts, and the
search result is identical. -/
theorem findMax_ignores_error_class_witness :
    findMaxWithdrawable probeOtherErr 1 10 32 =
      findMaxWithdrawable probeLimitErr 1 10 32 :=
  findMax_ignores_error_class probeOtherErr probeLimitErr 1 10 32 (fun _ => rfl)

/-- Claim C5: with the protocol state (probe oracle) and start guess fixed,
raising the ceiling never decreases the discovered maximum.  The start
guess is constrained to the unsigned range (`TrialAmount` is an unsigned
integer in the spec's data model). -/
theorem findMax_mono_in_ceiling (p : Int → SimResult) (s c1 c2 : Int)
    (f1 f2 : Nat) (v1 v2 : Int) (hs : 0 ≤ s) (hc : c1 ≤ c2)
    (h1 : findMaxWithdrawable p s c1 f1 = some v1)
    (h2 : findMaxWithdrawable p s c2 f2 = some v2) : v1 ≤ v2 := by
  rcases findMax_eq p s c1 f1 v1 h1 with ⟨lo1, hi1, t1, hg1, hc1⟩
  rcases findMax_eq p s c2 f2 v2 h2 with ⟨lo2, hi2, t2, hg2, hc2⟩
  by_cases hs0 : s = 0
  · subst hs0
    have z1 := growPhase_zero_start p c1 f1 lo1 hi1 t1 hg1
    have z2 := growPhase_zero_start p c2 f2 lo2 hi2 t2 hg2
    rcases hc1 with ⟨_, rfl⟩ | ⟨hl1, _⟩
    · rcases hc2 with ⟨_, rfl⟩ | ⟨hl2, _⟩
      · exact le_refl 0
      · exact absurd z2.1 hl2
    · exact absurd z1.1 hl1
  · have hs1 : (1 : Int) ≤ s := by omega
    have hcmp := growPhase_cap_compare p c1 c2 hc f1 f2 0 s lo1 hi1 lo2 hi2 t1 t2
      le_rfl (by omega) hg1 hg2
    have hinv1 := growPhase_inv p c1 f1 0 s lo1 hi1 t1 le_rfl (by omega) hg1
    have hinv2 := growPhase_inv p c2 f2 0 s lo2 hi2 t2 le_rfl (by omega) hg2
    rcases hcmp with ⟨hlo, hhi⟩ | hle
    · subst hlo
      subst hhi
      rcases hc1 with ⟨hl1, rfl⟩ | ⟨hl1, rfl⟩
      · rcases hc2 with ⟨hl2, rfl⟩ | ⟨hl2, rfl⟩
        · exact le_refl 0
        · exact absurd hl1 hl2
      · rcases hc2 with ⟨hl2, rfl⟩ | ⟨hl2, rfl⟩
        · exact absurd hl2 hl1
        · exact le_refl _
    · rcases hc2 with ⟨hl2, rfl⟩ | ⟨hl2, rfl⟩
      · omega
      · have hv2ge := bsearchPhase_ge p lo2 (hi2 - 1) lo2 le_rfl
        rcases hc1 with ⟨hl1, rfl⟩ | ⟨hl1, rfl⟩
        · omega
        · have hv1le := bsearchPhase_le p lo1 (hi1 - 1) lo1
          rw [max_eq_right (by omega : lo1 ≤ hi1 - 1)] at hv1le
          omega

/-- Witness for C5: `probeLeFive` with start 1 discovers 3 under ceiling 2
and 5 under ceiling 10. -/
theorem findMax_mono_in_ceiling_witness : (3 : Int) ≤ 5 :=
  findMax_mono_in_ceiling probeLeFive 1 2 10 20 20 3 5 (by decide) (by decide)
    eval_findMax_probeLeFive_cap2 eval_findMax_probeLeFive_cap10

/-- With start guess 0 and ceiling 0, an all-accepting probe makes the
exploration loop double `0` to `0` forever without exceeding the ceiling:
the run is `none` at EVERY fuel. -/
theorem growPhase_zero_guess_diverges :
    ∀ fuel : Nat, findMaxWithdrawableRun alwaysOkProbe 0 0 fuel = none := by
  have hgrow : ∀ fuel : Nat, growPhase alwaysOkProbe 0 fuel 0 0 = none := by
    intro fuel
    induction fuel with
    | zero => simp [growPhase]
    | succ fuel ih => simp [growPhase, alwaysOkProbe, ih]
  intro fuel
  unfold findMaxWithdrawableRun
  rw [hgrow fuel]

/-- Claim C6 (counterexample): with probe oracle accepting everything,
start guess 0 and ceiling 0, the search has still not terminated after a
million loop iterations (by `growPhase_zero_guess_diverges` it never does:
doubling 0 yields 0, which never exceeds the ceiling), refuting
"terminates for every probe oracle, start guess and ceiling".  For
comparison, the amended theorem shows fuel `c − s + 1` always suffices once
the start guess is at least 1. -/
theorem findMax_nonterminating_counterexample :
    findMaxWithdrawableRun alwaysOkProbe 0 0 1000000 = none :=
  growPhase_zero_guess_diverges 1000000

/-- Claim C6 (amended): for every start guess of at least 1,
`findMaxWithdrawable` terminates: the exploration phase needs at most
`capGuess − startGuess + 1` iterations (the trial at least doubles, hence
strictly grows, and is bounded by the ceiling), and the binary-search phase
strictly shrinks `[L, R]` at every step (it is total by construction). -/
theorem findMax_terminates_pos_start (p : Int → SimResult) (s c : Int)
    (fuel : Nat) (hs : 1 ≤ s) (hf : c < s + (fuel : Int)) :
    (findMaxWithdrawableRun p s c fuel).isSome := by
  have htot := growPhase_total p c fuel 0 s hs hf
  rcases Option.isSome_iff_exists.mp htot with ⟨⟨lo, hi, t⟩, hg⟩
  unfold findMaxWithdrawableRun
  rw [hg]
  dsimp only
  by_cases hl : lo = 0 <;> simp [hl]

/-- Witness for the amended C6 theorem at start 1, ceiling 10, fuel 12. -/
theorem findMax_terminates_pos_start_witness :
    (findMaxWithdrawableRun alwaysOkProbe 1 10 12).isSome :=
  findMax_terminates_pos_start alwaysOkProbe 1 10 12 (by decide) (by decide)

/-! ## Resilient executor (`attemptWithBackoff`, part_000 lines 744-769)

`runOnce(amountRaw)` is abstracted to an oracle indexed by the attempt
number and the amount.  Its three observable outcomes: returned with
`status === 'success'`, returned without success and without throwing
(the dry-run path), or threw an error message.  The backoff `sleep` is
wall-clock behaviour, not modelled; the verified content is the sequence
of attempted amounts, the classification priority and the abort
conditions. -/

/-- Outcome of one `runOnce` call, as observed by `attemptWithBackoff`. -/
inductive RunOutcome where
  | success
  | failQuiet
  | failThrow (msg : String)

/-- `msg.includes('Balance of gas object') || /gas/i.test(msg)`. -/
def isGasShortfallMsg (msg : String) : Bool :=
  strHasSub "Balance of gas object" msg || strHasSub "gas" (lowerStr msg)

/-- The lowered alternation of
`/health|limit|exceed|insufficient|cannot|over|abort|MoveAbort|EINSUFFICIENT|ELTV|ELVR|not enough/i`. -/
def retryPats : List String :=
  ["health", "limit", "exceed", "insufficient", "cannot", "over", "abort",
   "moveabort", "einsufficient", "eltv", "elvr", "not enough"]

def isRetryPatternMsg (msg : String) : Bool := matchesAnyCI retryPats msg

/-- The body of `attemptWithBackoff`'s `for` loop: `i` is the attempt
number, the second argument the remaining attempts, then the current
amount.  Returns the success flag and the list of amounts attempted
(`amountRaw / 2n` is BigInt division, truncating toward zero: `Int.tdiv`). -/
def attemptLoop (runOnce : Nat → Int → RunOutcome) :
    Nat → Nat → Int → Bool × List Int
  | _, 0, _ => (false, [])
  | i, rem + 1, amount =>
    match runOnce i amount with
    | .success => (true, [amount])
    | .failQuiet =>
      let r := attemptLoop runOnce (i + 1) rem amount
      (r.1, amount :: r.2)
    | .failThrow msg =>
      if isGasShortfallMsg msg then (false, [amount])
      else if isRetryPatternMsg msg then
        let next := Int.tdiv amount 2
        if next = 0 then (false, [amount])
        else
          let r := attemptLoop runOnce (i + 1) rem next
          (r.1, amount :: r.2)
      else (false, [amount])

/-- `attemptWithBackoff(amountRaw)`: loop `i = 1 .. Math.max(1, MAX_RETRY)`. -/
def attemptWithBackoff (runOnce : Nat → Int → RunOutcome) (maxRetry : Nat)
    (amount : Int) : Bool × List Int :=
  attemptLoop runOnce 1 (max 1 maxRetry) amount

/-- The attempt sequence the claim predicts under persistent resource-limit
failures: repeatedly halve, stopping early when the half would be zero. -/
def halveTrace (a : Int) : Nat → List Int
  | 0 => []
  | n + 1 =>
    a :: (if Int.tdiv a 2 = 0 then [] else halveTrace (Int.tdiv a 2) n)

/-- Claim C7: whenever a submission failure message indicates a gas/fee
shortfall — even if the same message also matches the resource-limit
pattern, since the gas test is performed first — the executor aborts at
once: it returns failure having attempted only the current amount, with no
halving and no further attempts.  Stated for every loop state `(i, rem)`
and for the entry point `attemptWithBackoff`. -/
theorem executor_gas_aborts_immediately (runOnce : Nat → Int → RunOutcome) :
    (∀ (i rem : Nat) (amount : Int) (msg : String), 1 ≤ rem →
       runOnce i amount = .failThrow msg → isGasShortfallMsg msg = true →
       attemptLoop runOnce i rem amount = (false, [amount])) ∧
    (∀ (maxRetry : Nat) (amount : Int) (msg : String),
       runOnce 1 amount = .failThrow msg → isGasShortfallMsg msg = true →
       attemptWithBackoff runOnce maxRetry amount = (false, [amount])) := by
  have hloop : ∀ (i rem : Nat) (amount : Int) (msg : String), 1 ≤ rem →
      runOnce i amount = .failThrow msg → isGasShortfallMsg msg = true →
      attemptLoop runOnce i rem amount = (false, [amount]) := by
    intro i rem amount msg hrem hrun hgas
    cases rem with
    | zero => omega
    | succ rem =>
      simp only [attemptLoop]
      rw [hrun]
      dsimp only
      rw [if_pos hgas]
  refine ⟨hloop, ?_⟩
  intro maxRetry amount msg hrun hgas
  exact hloop 1 (max 1 maxRetry) amount msg (le_max_left 1 maxRetry) hrun hgas

/-- A `runOnce` oracle that always fails with a message matching BOTH the
gas pattern and the resource-limit pattern. -/
def gasAndLimitOracle : Nat → Int → RunOutcome :=
  fun _ _ => .failThrow "gas limit exceeded"

/-- Witness for C7: the message matches the resource-limit pattern too, yet
the executor aborts at once without halving 1000. -/
theorem executor_gas_aborts_immediately_witness :
    attemptWithBackoff gasAndLimitOracle 4 1000 = (false, [1000]) :=
  (executor_gas_aborts_immediately gasAndLimitOracle).2 4 1000
    "gas limit exceeded" rfl (by decide)

theorem attemptLoop_halving (runOnce : Nat → Int → RunOutcome)
    (hfail : ∀ i a, ∃ msg, runOnce i a = .failThrow msg ∧
      isRetryPatternMsg msg = true ∧ isGasShortfallMsg msg = false) :
    ∀ (rem i : Nat) (a : Int),
      attemptLoop runOnce i rem a = (false, halveTrace a rem) := by
  intro rem
  induction rem with
  | zero =>
    intro i a
    rfl
  | succ rem ih =>
    intro i a
    rcases hfail i a with ⟨msg, hrun, hretry, hgas⟩
    simp only [attemptLoop, halveTrace]
    rw [hrun]
    dsimp only
    rw [if_neg (by simp [hgas]), if_pos hretry]
    by_cases hz : Int.tdiv a 2 = 0
    · rw [if_pos hz, if_pos hz]
    · rw [if_neg hz, if_neg hz, ih (i + 1) (Int.tdiv a 2)]

theorem attemptLoop_length (runOnce : Nat → Int → RunOutcome) :
    ∀ (rem i : Nat) (a : Int),
      (attemptLoop runOnce i rem a).2.length ≤ rem := by
  intro rem
  induction rem with
  | zero =>
    intro i a
    simp [attemptLoop]
  | succ rem ih =>
    intro i a
    simp only [attemptLoop]
    cases hr : runOnce i a with
    | success => simp
    | failQuiet =>
      have := ih (i + 1) a
      simp only [List.length_cons]
      omega
    | failThrow msg =>
      dsimp only
      by_cases hg : isGasShortfallMsg msg = true
      · rw [if_pos hg]
        simp
      · rw [if_neg hg]
        by_cases hp : isRetryPatternMsg msg = true
        · rw [if_pos hp]
          by_cases hz : Int.tdiv a 2 = 0
          · rw [if_pos hz]
            simp
          · rw [if_neg hz]
            have := ih (i + 1) (Int.tdiv a 2)
            simp only [List.length_cons]
            omega
        · rw [if_neg hp]
          simp

/-- Claim C8: when every failure matches the resource-limit pattern and not
the gas pattern, each retry attempts exactly the truncated half of the
previous amount after the backoff delay (the delay itself is wall-clock
behaviour, outside the embedding), the loop aborts as a hard failure when
the halved amount would reach zero, and in every case the executor performs
at most `max(1, maxRetry)` attempts. -/
theorem executor_resource_limit_halving :
    (∀ (runOnce : Nat → Int → RunOutcome) (maxRetry : Nat) (a0 : Int),
       (∀ i a, ∃ msg, runOnce i a = .failThrow msg ∧
          isRetryPatternMsg msg = true ∧ isGasShortfallMsg msg = false) →
       attemptWithBackoff runOnce maxRetry a0 =
         (false, halveTrace a0 (max 1 maxRetry))) ∧
    (∀ (runOnce : Nat → Int → RunOutcome) (maxRetry : Nat) (a0 : Int),
       (attemptWithBackoff runOnce maxRetry a0).2.length ≤ max 1 maxRetry) := by
  constructor
  · intro runOnce maxRetry a0 hfail
    exact attemptLoop_halving runOnce hfail (max 1 maxRetry) 1 a0
  · intro runOnce maxRetry a0
    exact attemptLoop_length runOnce (max 1 maxRetry) 1 a0

/-- A `runOnce` oracle that always fails with a resource-limit message. -/
def resourceLimitOracle : Nat → Int → RunOutcome :=
  fun _ _ => .failThrow "MoveAbort over limit"

/-- Witness for C8: starting at 1000 with 4 attempts allowed, the attempted
amounts are exactly 1000, 500, 250, 125, and the count bound holds. -/
theorem executor_resource_limit_halving_witness :
    attemptWithBackoff resourceLimitOracle 4 1000 =
      (false, [1000, 500, 250, 125]) ∧
    (attemptWithBackoff resourceLimitOracle 4 1000).2.length ≤ max 1 4 := by
  refine ⟨?_, executor_resource_limit_halving.2 resourceLimitOracle 4 1000⟩
  have h := executor_resource_limit_halving.1 resourceLimitOracle 4 1000
    (fun _ _ => ⟨"MoveAbort over limit", rfl, by decide, by decide⟩)
  rw [h]
  rfl

/-! ## Entry discoverer (`paramTags` lines 175-187, `scoreWithdrawEntry`
lines 189-203, `autoDiscoverWithdrawTargets` lines 205-230) -/

/-- A discovered entry function: module and function name plus the
serialized parameter descriptors. -/
structure MoveEntry where
  module : String
  fn : String
  params : List String

/-- `paramTags(params)`: regex tests over `s = JSON.stringify(params)`;
serializing the array wraps the parameter strings in `[...]` joined by
commas. -/
structure ParamTagSet where
  hasU64 : Bool
  wantsVersion : Bool
  wantsObligation : Bool
  wantsObligationKey : Bool
  wantsMarket : Bool
  wantsClock : Bool
  wantsOracle : Bool
  wantsDecimalsRegistry : Bool

def paramTags (params : List String) : ParamTagSet :=
  let s := "[" ++ String.intercalate "," params ++ "]"
  { hasU64 := strHasSub patU64Quoted s || strHasSub patU64 s
    wantsVersion := strHasSub patVersion s
    wantsObligation := strHasSub patObligation s
    wantsObligationKey := strHasSub patObligationKey s
    wantsMarket := strHasSub patMarket s
    wantsClock := strHasSub patClock s
    wantsOracle := strHasSub patOracle s
    wantsDecimalsRegistry := strHasSub patRegistry s }

/-- JavaScript `name.endsWith(sfx)`. -/
def strEndsWith (s sfx : String) : Bool :=
  leadsWith sfx.toList.reverse s.toList.reverse

/-- `scoreWithdrawEntry(e)` with its sequential `sc += ...` accumulation. -/
def scoreWithdrawEntry (e : MoveEntry) : Nat :=
  let name := lowerStr (e.module ++ "::" ++ e.fn)
  let sc : Nat := 0
  let sc := if strHasSub "withdraw" name then sc + 3 else sc
  let sc := if strHasSub "withdraw_collateral" name then sc + 5 else sc
  let sc := if strEndsWith name "withdraw" || strEndsWith name "withdraw_collateral" ||
      strEndsWith name "withdraw_collateral_entry" then sc + 2 else sc
  let t := paramTags e.params
  let sc := if t.wantsVersion then sc + 1 else sc
  let sc := if t.wantsObligation then sc + 2 else sc
  let sc := if t.wantsObligationKey then sc + 2 else sc
  let sc := if t.wantsMarket then sc + 1 else sc
  let sc := if t.hasU64 then sc + 1 else sc
  let sc := if t.wantsDecimalsRegistry then sc + 2 else sc
  sc

/-- The weighted-sum formula stated by the spec (§4.3, claim C9), written
independently of the source's accumulation; to be compared with
`scoreWithdrawEntry`. -/
def specWithdrawScore (e : MoveEntry) : Nat :=
  let name := lowerStr (e.module ++ "::" ++ e.fn)
  let t := paramTags e.params
  (if strHasSub "withdraw" name then 3 else 0) +
  (if strHasSub "withdraw_collateral" name then 5 else 0) +
  (if strEndsWith name "withdraw" || strEndsWith name "withdraw_collateral" ||
      strEndsWith name "withdraw_collateral_entry" then 2 else 0) +
  (if t.wantsVersion then 1 else 0) +
  (if t.wantsObligation then 2 else 0) +
  (if t.wantsObligationKey then 2 else 0) +
  (if t.wantsMarket then 1 else 0) +
  (if t.hasU64 then 1 else 0) +
  (if t.wantsDecimalsRegistry then 2 else 0)

/-- Stable insertion of a scored entry into a descending-sorted list: the
element is placed before the first entry whose score is not larger, so an
earlier-discovered entry precedes later ones of equal score. Together with
`sortScoredDesc` this models `found.sort((a, b) => b.score - a.score)`
(ECMAScript `Array.prototype.sort` is stable). -/
def insertScoredDesc (x : MoveEntry × Nat) :
    List (MoveEntry × Nat) → List (MoveEntry × Nat)
  | [] => [x]
  | y :: ys => if x.2 < y.2 then y :: insertScoredDesc x ys else x :: y :: ys

def sortScoredDesc : List (MoveEntry × Nat) → List (MoveEntry × Nat)
  | [] => []
  | x :: xs => insertScoredDesc x (sortScoredDesc xs)

/-- The network-free core of `autoDiscoverWithdrawTargets`: over the
entries of the candidate packages in discovery order, keep those whose
lowercased qualified name contains "withdraw", attach scores, and sort by
descending score. -/
def autoDiscoverWithdrawTargets (entries : List MoveEntry) :
    List (MoveEntry × Nat) :=
  let found := (entries.filter
      (fun e => strHasSub "withdraw" (lowerStr (e.module ++ "::" ++ e.fn)))).map
    (fun e => (e, scoreWithdrawEntry e))
  sortScoredDesc found

theorem ite_add_shift (b : Prop) [Decidable b] (x k : Nat) :
    (if b then x + k else x) = x + (if b then k else 0) := by
  split <;> omega

theorem mem_insertScoredDesc (x z : MoveEntry × Nat)
    (l : List (MoveEntry × Nat)) :
    z ∈ insertScoredDesc x l → z = x ∨ z ∈ l := by
  induction l with
  | nil =>
    intro h
    simp [insertScoredDesc] at h
    exact Or.inl h
  | cons y ys ih =>
    simp only [insertScoredDesc]
    by_cases hlt : x.2 < y.2
    · rw [if_pos hlt]
      intro h
      rcases List.mem_cons.mp h with rfl | h
      · exact Or.inr (List.mem_cons_self _ _)
      · rcases ih h with rfl | h
        · exact Or.inl rfl
        · exact Or.inr (List.mem_cons_of_mem _ h)
    · rw [if_neg hlt]
      intro h
      rcases List.mem_cons.mp h with rfl | h
      · exact Or.inl rfl
      · exact Or.inr h

theorem pairwise_insertScoredDesc (x : MoveEntry × Nat)
    (l : List (MoveEntry × Nat)) (h : l.Pairwise (fun a b => b.2 ≤ a.2)) :
    (insertScoredDesc x l).Pairwise (fun a b => b.2 ≤ a.2) := by
  induction l with
  | nil => simp [insertScoredDesc]
  | cons y ys ih =>
    rcases List.pairwise_cons.mp h with ⟨hy, hys⟩
    simp only [insertScoredDesc]
    by_cases hlt : x.2 < y.2
    · rw [if_pos hlt]
      refine List.pairwise_cons.mpr ⟨?_, ih hys⟩
      intro z hz
      rcases mem_insertScoredDesc x z ys hz with rfl | hz
      · omega
      · exact hy z hz
    · rw [if_neg hlt]
      refine List.pairwise_cons.mpr ⟨?_, h⟩
      intro z hz
      rcases List.mem_cons.mp hz with rfl | hz
      · omega
      · have := hy z hz
        omega

theorem pairwise_sortScoredDesc (l : List (MoveEntry × Nat)) :
    (sortScoredDesc l).Pairwise (fun a b => b.2 ≤ a.2) := by
  induction l with
  | nil => simp [sortScoredDesc]
  | cons x xs ih => exact pairwise_insertScoredDesc x _ ih

theorem filter_insertScoredDesc (x : MoveEntry × Nat)
    (l : List (MoveEntry × Nat)) (n : Nat) :
    (insertScoredDesc x l).filter (fun p => p.2 == n) =
      if x.2 == n then x :: l.filter (fun p => p.2 == n)
      else l.filter (fun p => p.2 == n) := by
  induction l with
  | nil =>
    by_cases hx : x.2 = n <;> simp [insertScoredDesc, hx]
  | cons y ys ih =>
    simp only [insertScoredDesc]
    by_cases hlt : x.2 < y.2
    · rw [if_pos hlt]
      rw [List.filter_cons, List.filter_cons, ih]
      by_cases hx : x.2 = n
      · have hyn : y.2 ≠ n := by omega
        simp [hx, hyn]
      · by_cases hy : y.2 = n <;> simp [hx, hy]
    · rw [if_neg hlt]
      rw [List.filter_cons, List.filter_cons]

theorem filter_sortScoredDesc (l : List (MoveEntry × Nat)) (n : Nat) :
    (sortScoredDesc l).filter (fun p => p.2 == n) =
      l.filter (fun p => p.2 == n) := by
  induction l with
  | nil => rfl
  | cons x xs ih =>
    simp only [sortScoredDesc, filter_insertScoredDesc, List.filter_cons, ih]

/-- Claim C9: the discoverer's score is exactly the spec's weighted sum,
and candidates are ranked by descending score with ties kept in discovery
order (the filtered, scored list restricted to any fixed score is
unchanged by the sort — the stability property). -/
theorem discoverer_score_and_ranking :
    (∀ e : MoveEntry, scoreWithdrawEntry e = specWithdrawScore e) ∧
    (∀ entries : List MoveEntry,
       (autoDiscoverWithdrawTargets entries).Pairwise (fun a b => b.2 ≤ a.2)) ∧
    (∀ (entries : List MoveEntry) (n : Nat),
       (autoDiscoverWithdrawTargets entries).filter (fun p => p.2 == n) =
         ((entries.filter (fun e => strHasSub "withdraw"
             (lowerStr (e.module ++ "::" ++ e.fn)))).map
            (fun e => (e, scoreWithdrawEntry e))).filter (fun p => p.2 == n)) := by
  refine ⟨?_, ?_, ?_⟩
  · intro e
    simp only [scoreWithdrawEntry, specWithdrawScore, ite_add_shift, Nat.zero_add]
  · intro entries
    exact pairwise_sortScoredDesc _
  · intro entries n
    exact filter_sortScoredDesc _ n

/-! ## Registry selection (`getOwnerKind` lines 130-141,
`autoFindRegistryCandidates` lines 414-446, `tryPickWorkingRegistry` lines
448-478, and the selection logic of `main`, lines 607-637) -/

/-- Ownership classification returned by `getOwnerKind`; a failed or
unrecognized lookup is `none`. -/
inductive OwnerKind where
  | Shared
  | Immutable
  | AddressOwner
  | ObjectOwner
deriving DecidableEq

/-- `own === 'Shared' || own === 'Immutable'`. -/
def ownerOk (o : Option OwnerKind) : Bool :=
  o == some .Shared || o == some .Immutable

def REGISTRY_TYPE_SUFFIX : String := "::coin_decimals_registry::CoinDecimalsRegistry"

/-- `t && t.includes(REGISTRY_TYPE_SUFFIX)`. -/
def regTypeOk (t : Option String) : Bool :=
  match t with
  | none => false
  | some ty => strHasSub REGISTRY_TYPE_SUFFIX ty

/-- `(t || '').includes('coin_decimals_registry')`. -/
def regLookalikeOk (t : Option String) : Bool :=
  match t with
  | none => false
  | some ty => strHasSub "coin_decimals_registry" ty

/-- The prioritisation step of `autoFindRegistryCandidates`: `arr` is the
gathered candidate-id set in insertion order (env id, root objects, dynamic
children, content scan — the network walking is abstracted away), `typeOf`
and `ownerOf` the `getObjectType` / `getOwnerKind` oracles.  Exact-type
candidates with Shared/Immutable owner are preferred; otherwise any
Shared/Immutable lookalike; both capped at 64. -/
def autoFindRegistryCandidates (typeOf : String → Option String)
    (ownerOf : String → Option OwnerKind) (arr : List String) : List String :=
  let prioritized := arr.filter
    (fun id => regTypeOk (typeOf id) && ownerOk (ownerOf id))
  let others := arr.filter
    (fun id => !(regTypeOk (typeOf id) && ownerOk (ownerOf id)))
  if prioritized.isEmpty then
    (others.filter
      (fun id => ownerOk (ownerOf id) && regLookalikeOk (typeOf id))).take 64
  else prioritized.take 64

/-- The lowered alternation of
`/(limit|health|ELTV|ELVR|insufficient|cannot|over|MoveAbort)/i` accepting
a registry candidate whose dry-run failure is not registry-related. -/
def regAcceptPats : List String :=
  ["limit", "health", "eltv", "elvr", "insufficient", "cannot", "over",
   "moveabort"]

/-- `tryPickWorkingRegistry`: skip a candidate unless its owner is
Shared/Immutable; then build and dry-run a probe transaction with the
candidate bound as registry — abstracted to `dryRunWith` (`none` models a
thrown build/dry-run error, caught and skipped); accept the candidate on a
clean dry-run or on a failure matching the non-registry error pattern. -/
def tryPickWorkingRegistry (ownerOf : String → Option OwnerKind)
    (dryRunWith : String → Option SimResult) : List String → Option String
  | [] => none
  | cand :: rest =>
    if ownerOk (ownerOf cand) then
      match dryRunWith cand with
      | none => tryPickWorkingRegistry ownerOf dryRunWith rest
      | some sim =>
        if sim.ok then some cand
        else if matchesAnyCI regAcceptPats sim.err then some cand
        else tryPickWorkingRegistry ownerOf dryRunWith rest
    else tryPickWorkingRegistry ownerOf dryRunWith rest

/-- The registry-selection logic of `main` for the top-scoring entry that
wants a registry: use the env override only when its owner passes the
ownership check, otherwise the auto-gathered candidates; pick a candidate
working under dry-run; failing that, under `ALLOW_REGISTRY_BEST_EFFORT`,
use the top candidate. -/
def selectRegistryForTop (ownerOf : String → Option OwnerKind)
    (dryRunWith : String → Option SimResult) (autoCands : List String)
    (envRegistry : Option String) (allowBestEffort : Bool) : Option String :=
  let registryCandidates : List String :=
    match envRegistry with
    | some e => if ownerOk (ownerOf e) then [e] else []
    | none => []
  let registryCandidates :=
    if registryCandidates.isEmpty then autoCands else registryCandidates
  if registryCandidates.isEmpty then none
  else
    match tryPickWorkingRegistry ownerOf dryRunWith registryCandidates with
    | some w => some w
    | none => if allowBestEffort then registryCandidates.head? else none

theorem tryPick_ownerOk (ownerOf : String → Option OwnerKind)
    (dryRunWith : String → Option SimResult) :
    ∀ (cands : List String) (w : String),
      tryPickWorkingRegistry ownerOf dryRunWith cands = some w →
      ownerOk (ownerOf w) = true := by
  intro cands
  induction cands with
  | nil =>
    intro w h
    cases h
  | cons c rest ih =>
    intro w h
    simp only [tryPickWorkingRegistry] at h
    by_cases ho : ownerOk (ownerOf c) = true
    · rw [if_pos ho] at h
      rcases hd : dryRunWith c with _ | sim
      · rw [hd] at h
        exact ih w h
      · rw [hd] at h
        dsimp only at h
        by_cases hok : sim.ok = true
        · rw [if_pos hok] at h
          cases h
          exact ho
        · rw [if_neg hok] at h
          by_cases hm : matchesAnyCI regAcceptPats sim.err = true
          · rw [if_pos hm] at h
            cases h
            exact ho
          · rw [if_neg hm] at h
            exact ih w h
    · rw [if_neg ho] at h
      exact ih w h

theorem autoFind_mem_ownerOk (typeOf : String → Option String)
    (ownerOf : String → Option OwnerKind) (arr : List String) :
    ∀ id ∈ autoFindRegistryCandidates typeOf ownerOf arr,
      ownerOk (ownerOf id) = true := by
  intro id hid
  unfold autoFindRegistryCandidates at hid
  dsimp only at hid
  split at hid
  · have hmem := List.mem_of_mem_take hid
    have := (List.mem_filter.mp hmem).2
    simp only [Bool.and_eq_true] at this
    exact this.1
  · have hmem := List.mem_of_mem_take hid
    have := (List.mem_filter.mp hmem).2
    simp only [Bool.and_eq_true] at this
    exact this.2

/-- Claim C10: every registry id the selection logic can bind into a built
transaction — the environment override (accepted only after the ownership
check), a candidate accepted by a clean dry-run, or the top auto-gathered
candidate under the best-effort flag — has ownership Shared or Immutable;
candidates with AddressOwner, ObjectOwner or unknown ownership are skipped
and never selected. -/
theorem registry_selection_shared_or_immutable
    (typeOf : String → Option String) (ownerOf : String → Option OwnerKind)
    (dryRunWith : String → Option SimResult) (arr : List String)
    (envRegistry : Option String) (allowBestEffort : Bool) (r : String)
    (h : selectRegistryForTop ownerOf dryRunWith
          (autoFindRegistryCandidates typeOf ownerOf arr) envRegistry
          allowBestEffort = some r) :
    ownerOf r = some OwnerKind.Shared ∨ ownerOf r = some OwnerKind.Immutable := by
  have hcore : ∀ cands : List String,
      (∀ id ∈ cands, ownerOk (ownerOf id) = true) →
      (if cands.isEmpty then none
       else match tryPickWorkingRegistry ownerOf dryRunWith cands with
            | some w => some w
            | none => if allowBestEffort then cands.head? else none) = some r →
      ownerOk (ownerOf r) = true := by
    intro cands hc hsel
    by_cases he : cands.isEmpty
    · rw [if_pos he] at hsel
      cases hsel
    · rw [if_neg he] at hsel
      rcases ht : tryPickWorkingRegistry ownerOf dryRunWith cands with _ | w
      · rw [ht] at hsel
        dsimp only at hsel
        by_cases hb : allowBestEffort = true
        · rw [if_pos hb] at hsel
          cases cands with
          | nil => cases hsel
          | cons c rest =>
            cases hsel
            exact hc _ (List.mem_cons_self _ _)
        · rw [if_neg hb] at hsel
          cases hsel
      · rw [ht] at hsel
        cases hsel
        exact tryPick_ownerOk ownerOf dryRunWith cands r ht
  have hok : ownerOk (ownerOf r) = true := by
    rcases envRegistry with _ | e
    · exact hcore _ (autoFind_mem_ownerOk typeOf ownerOf arr) h
    · by_cases ho : ownerOk (ownerOf e) = true
      · unfold selectRegistryForTop at h
        dsimp only at h
        rw [if_pos ho] at h
        refine hcore [e] ?_ h
        intro id hid
        rcases List.mem_singleton.mp hid with rfl
        exact ho
      · unfold selectRegistryForTop at h
        dsimp only at h
        rw [if_neg ho] at h
        exact hcore _ (autoFind_mem_ownerOk typeOf ownerOf arr) h
  simp only [ownerOk, Bool.or_eq_true, beq_iff_eq] at hok
  exact hok

/-- Ownership oracle for the witness: one AddressOwned candidate and one
Shared candidate. -/
def ownerOracleW : String → Option OwnerKind :=
  fun id => if id = "0xbad" then some .AddressOwner
            else if id = "0xreg" then some .Shared else none

def typeOracleW : String → Option String :=
  fun id => if id = "0xbad" || id = "0xreg"
            then some "0xpkg::coin_decimals_registry::CoinDecimalsRegistry"
            else none

def dryRunOracleW : String → Option SimResult :=
  fun id => if id = "0xreg" then some ⟨true, ""⟩ else none

/-- Witness for C10: among candidates `0xbad` (AddressOwned registry) and
`0xreg` (Shared registry), selection picks `0xreg`, whose owner is Shared. -/
theorem registry_selection_shared_or_immutable_witness :
    ownerOracleW "0xreg" = some OwnerKind.Shared ∨
    ownerOracleW "0xreg" = some OwnerKind.Immutable :=
  registry_selection_shared_or_immutable typeOracleW ownerOracleW
    dryRunOracleW ["0xbad", "0xreg"] none true "0xreg" (by decide)

end Creek
